import Mathlib

/-!
Verification of the cognitive-memory engine of this repository.

The definitions below are a shallow embedding of the TypeScript/JavaScript
sources:

* `LRUWorkingMemory` embeds `dist/implementations/working-memory.js`
  (`LRUWorkingMemory`): the bounded fact buffer, its id-indexed fact map,
  the two eviction strategies, weight-based sampling and weight
  normalisation (`consolidate`).
* `EmotionalMem` embeds `src/implementations/emotional-memory.ts`
  (`SupabaseEmotionalMemory.updateState` / `decayEmotions`) and the
  state-update/decay arithmetic of `src/services/emotional.ts`
  (`EmotionalService.calculateNewState` / `applyEmotionalDecay`).
* `LongTermMem` embeds `src/implementations/long-term-memory.ts`
  (`SupabaseLongTermMemory.findSimilarPatterns` / `strengthenPattern`).
* `CognitiveSys` embeds `dist/index.js` (`CognitiveSystem.processSleepCycle`,
  `reduceEmotionalImpact`).

JavaScript numbers are modelled as rationals where all operations are
field operations (facts, emotional state) and as reals where `Math.exp`
occurs (pattern weights).  `Date` timestamps enter only through
`strengthenPattern`, where the elapsed time is an explicit parameter.
JS `Map` objects are modelled as functions `String → Option _`;
the access-time metrics of the source (wall-clock derived) are not
representable and are omitted, the eviction counter is kept.
-/

namespace GoinBuck

/-- Emotional quadrant over rationals: the 4-dimensional
{joy, calm, anger, sadness} vector of `src/types.ts`. -/
structure EQuad where
  joy : ℚ
  calm : ℚ
  anger : ℚ
  sadness : ℚ
deriving DecidableEq, Repr

/-- A fact as stored in working memory (`Fact` of `src/types.ts`);
`embedding`, `source` and `timestamp` play no role in any claim-relevant
operation of working memory and are omitted from the embedding. -/
structure Fact where
  id : String
  content : String
  weight : ℚ
  emotionalImpact : EQuad
deriving DecidableEq, Repr

/-- Eviction strategy of the working memory (`'lru' | 'weight'`). -/
inductive EvictionStrategy where
  | lru
  | weight
deriving DecidableEq, Repr

namespace LRUWorkingMemory

/-- JS `Map.set` on the id-indexed fact map. -/
def mapSet (m : String → Option Fact) (k : String) (v : Fact) : String → Option Fact :=
  fun x => if x = k then some v else m x

/-- JS `Map.delete` on the id-indexed fact map. -/
def mapDel (m : String → Option Fact) (k : String) : String → Option Fact :=
  fun x => if x = k then none else m x

/-- State of `LRUWorkingMemory`: the ordered `factBuffer.facts`, the
`factMap`, capacity (`maxSize`), strategy, and the eviction counter of
`metrics`. -/
structure State where
  maxSize : Nat
  strategy : EvictionStrategy
  factMap : String → Option Fact
  facts : List Fact
  evictions : Nat

/-- Fresh working memory as built by the constructor. -/
def init (capacity : Nat) (strategy : EvictionStrategy) : State :=
  { maxSize := capacity
    strategy := strategy
    factMap := fun _ => none
    facts := []
    evictions := 0 }

/-- The index scan of `evictByWeight`: walk the buffer keeping the index of
the current strict minimum (`if (facts[i].weight < facts[minWeightIndex].weight)`),
so ties keep the earliest index. `i` is the index of the head of the
remaining list, `bi`/`bw` the best index and weight so far. -/
def minScan : List Fact → Nat → Nat → ℚ → Nat
  | [], _, bi, _ => bi
  | f :: rest, i, bi, bw =>
    if f.weight < bw then minScan rest (i + 1) i f.weight
    else minScan rest (i + 1) bi bw

/-- `minWeightIndex` as computed by the loop in `evictByWeight`. -/
def minWeightIndex : List Fact → Nat
  | [] => 0
  | f :: rest => minScan rest 1 0 f.weight

/-- `evictOldest()`: drop the front of the buffer and its map entry. -/
def evictOldest (s : State) : State :=
  match s.facts with
  | [] => s
  | f :: rest =>
    { s with facts := rest
             factMap := mapDel s.factMap f.id
             evictions := s.evictions + 1 }

/-- `evictByWeight()`: remove the fact at `minWeightIndex` (splice) and its
map entry.  The inner `none` branch is unreachable because the index is
always in range for a non-empty buffer. -/
def evictByWeight (s : State) : State :=
  match s.facts with
  | [] => s
  | _ :: _ =>
    match s.facts.get? (minWeightIndex s.facts) with
    | some ev =>
      { s with facts := s.facts.eraseIdx (minWeightIndex s.facts)
               factMap := mapDel s.factMap ev.id
               evictions := s.evictions + 1 }
    | none => s

/-- `addFact(fact)`: evict per strategy when `facts.length >= maxSize`,
then append the fact and set its map entry. -/
def addFact (s : State) (f : Fact) : State :=
  let s1 :=
    if s.maxSize ≤ s.facts.length then
      match s.strategy with
      | .lru => evictOldest s
      | .weight => evictByWeight s
    else s
  { s1 with factMap := mapSet s1.factMap f.id f
            facts := s1.facts ++ [f] }

/-- `getFacts()`: snapshot of the ordered buffer. -/
def getFacts (s : State) : List Fact := s.facts

/-- `retrieve(id)`: `factMap.get(id)`. -/
def retrieve (s : State) (id : String) : Option Fact := s.factMap id

/-- `delete(id)`: remove the map entry and filter the buffer. -/
def deleteFact (s : State) (id : String) : State :=
  { s with factMap := mapDel s.factMap id
           facts := s.facts.filter (fun f => f.id ≠ id) }

/-- JS `Array.findIndex`, as an `Option Nat` (source: `findIndex(f => f.id === id)`). -/
def findIndex (pred : Fact → Bool) : List Fact → Option Nat
  | [] => none
  | f :: rest => if pred f then some 0 else (findIndex pred rest).map (· + 1)

/-- `update(id, item)`: on a map hit, overwrite the map entry, replace the
first buffer entry with that id in place, and under the `lru` strategy
splice it out and push it to the back; on a miss the method throws before
any mutation, so the state is unchanged. -/
def updateFact (s : State) (id : String) (fact : Fact) : State :=
  match s.factMap id with
  | some _ =>
    let m := mapSet s.factMap id fact
    match findIndex (fun f => f.id == id) s.facts with
    | some i =>
      let facts1 := s.facts.set i fact
      match s.strategy with
      | .lru => { s with factMap := m, facts := facts1.eraseIdx i ++ [fact] }
      | .weight => { s with factMap := m, facts := facts1 }
    | none => { s with factMap := m }
  | none => s

/-- `clear()`: empty buffer and map (metrics are kept). -/
def clear (s : State) : State :=
  { s with factMap := fun _ => none, facts := [] }

/-- `Math.max(...facts.map(f => f.weight))` restricted to non-empty input
(on empty input the JS call yields `-Infinity`, represented as `none`). -/
def listMax : List ℚ → Option ℚ
  | [] => none
  | x :: xs =>
    match listMax xs with
    | none => some x
    | some m => some (max x m)

/-- `consolidate()`: when the maximum weight is positive, divide every
weight by it and refresh the map entries; otherwise do nothing. -/
def consolidate (s : State) : State :=
  match listMax (s.facts.map Fact.weight) with
  | none => s
  | some m =>
    if 0 < m then
      let facts1 := s.facts.map (fun f => { f with weight := f.weight / m })
      { s with facts := facts1
               factMap := facts1.foldl (fun mp f => mapSet mp f.id f) s.factMap }
    else s

/-- Stable descending insertion used to model the stable
`sort((a, b) => b.weight - a.weight)` of `getSampleByWeight`. -/
def insertDesc (f : Fact) : List Fact → List Fact
  | [] => [f]
  | g :: rest =>
    if g.weight ≤ f.weight then f :: g :: rest else g :: insertDesc f rest

/-- Stable sort by descending weight. -/
def sortByWeightDesc (l : List Fact) : List Fact :=
  l.foldr insertDesc []

/-- `getSampleByWeight(n)`: top `n` facts by descending weight. -/
def getSampleByWeight (s : State) (n : Nat) : List Fact :=
  (sortByWeightDesc s.facts).take n

/-- A whole sequence of `addFact` calls. -/
def insertAll (s : State) (fs : List Fact) : State :=
  fs.foldl addFact s

end LRUWorkingMemory

namespace EmotionalMem

/-- Clamping of a quadrant component: `Math.max(-1, Math.min(1, value))`
(`config.emotional.maxQuadrantValue = 1`, `minQuadrantValue = -1`). -/
def clampValue (x : ℚ) : ℚ := max (-1) (min 1 x)

/-- `SupabaseEmotionalMemory.updateState` / `EmotionalService.calculateNewState`:
add the impact componentwise and clamp each component. -/
def updateState (s impact : EQuad) : EQuad :=
  { joy := clampValue (s.joy + impact.joy)
    calm := clampValue (s.calm + impact.calm)
    anger := clampValue (s.anger + impact.anger)
    sadness := clampValue (s.sadness + impact.sadness) }

/-- `SupabaseEmotionalMemory.decayEmotions(rate)`: multiply each component
by `rate`, with no clamping. -/
def decayEmotions (s : EQuad) (rate : ℚ) : EQuad :=
  { joy := s.joy * rate
    calm := s.calm * rate
    anger := s.anger * rate
    sadness := s.sadness * rate }

/-- `EmotionalService.applyEmotionalDecay(rate)`: compute the quadrant
scaled by `1 - rate` and feed it through `calculateNewState`, which adds
it to the current state and clamps. -/
def applyEmotionalDecay (s : EQuad) (rate : ℚ) : EQuad :=
  updateState s
    { joy := s.joy * (1 - rate)
      calm := s.calm * (1 - rate)
      anger := s.anger * (1 - rate)
      sadness := s.sadness * (1 - rate) }

/-- The zero state the constructors start from. -/
def initialState : EQuad := { joy := 0, calm := 0, anger := 0, sadness := 0 }

/-- One emotional-state operation: an additive update
(`updateState`/`calculateNewState`), a multiplicative decay
(`decayEmotions`) or the service-level decay (`applyEmotionalDecay`). -/
inductive Op where
  | update (impact : EQuad)
  | decay (rate : ℚ)
  | serviceDecay (rate : ℚ)

/-- Apply one operation. -/
def step (s : EQuad) : Op → EQuad
  | .update impact => updateState s impact
  | .decay rate => decayEmotions s rate
  | .serviceDecay rate => applyEmotionalDecay s rate

/-- Apply a sequence of operations. -/
def run (s : EQuad) (ops : List Op) : EQuad :=
  ops.foldl step s

/-- Every component lies in `[-1, 1]`. -/
def InBounds (s : EQuad) : Prop :=
  -1 ≤ s.joy ∧ s.joy ≤ 1 ∧ -1 ≤ s.calm ∧ s.calm ≤ 1 ∧
  -1 ≤ s.anger ∧ s.anger ≤ 1 ∧ -1 ≤ s.sadness ∧ s.sadness ≤ 1

instance (s : EQuad) : Decidable (InBounds s) := by
  unfold InBounds; infer_instance

/-- A decay call carries a rate in `[0, 1]` (the configured decay rates,
e.g. `emotionalDecayRate = 0.1`, are of this form); updates and the
clamped service decay are unrestricted. -/
def ValidOp : Op → Prop
  | .update _ => True
  | .decay rate => 0 ≤ rate ∧ rate ≤ 1
  | .serviceDecay _ => True

end EmotionalMem

/-- Emotional quadrant over the reals, used for pattern signatures and
emotional contexts in the long-term memory, whose weight arithmetic
involves `Math.exp`. -/
structure RQuad where
  joy : ℝ
  calm : ℝ
  anger : ℝ
  sadness : ℝ

/-- A pattern of the long-term memory (`Pattern` of `src/types.ts`):
a cluster of fact ids with an aggregate weight, an emotional signature
and a `lastAccessed` timestamp (epoch milliseconds, modelled as a real). -/
structure Pattern where
  id : String
  facts : List String
  weight : ℝ
  emotionalSignature : RQuad
  lastAccessed : ℝ

namespace LongTermMem

/-- `calculateEmotionalSimilarity`: mean over the four dimensions of
`context[dim] * (pattern.emotionalSignature[dim] || 0)`. -/
noncomputable def calculateEmotionalSimilarity (ctx : RQuad) (p : Pattern) : ℝ :=
  (ctx.joy * p.emotionalSignature.joy + ctx.calm * p.emotionalSignature.calm +
    ctx.anger * p.emotionalSignature.anger + ctx.sadness * p.emotionalSignature.sadness) / 4

/-- `updateEmotionalSignature`: per present dimension,
`(signature[dim] + context[dim]) / 2`. -/
noncomputable def updateEmotionalSignature (sig ctx : RQuad) : RQuad :=
  { joy := (sig.joy + ctx.joy) / 2
    calm := (sig.calm + ctx.calm) / 2
    anger := (sig.anger + ctx.anger) / 2
    sadness := (sig.sadness + ctx.sadness) / 2 }

/-- The 30-day constant of `strengthenPattern`: `30 * 24 * 60 * 60 * 1000`
milliseconds. -/
def halfLifeMillis : ℝ := 30 * 24 * 60 * 60 * 1000

/-- State of `SupabaseLongTermMemory`: the in-process `patterns` map and
the rows of the backing store's pattern table. -/
structure State where
  patterns : String → Option Pattern
  db : List Pattern

/-- JS `Map.set` on the in-process pattern map. -/
def pmapSet (m : String → Option Pattern) (k : String) (v : Pattern) :
    String → Option Pattern :=
  fun x => if x = k then some v else m x

/-- `DatabaseService.updatePattern`: overwrite the backing-store row with
the pattern's id. -/
def dbUpdatePattern (db : List Pattern) (p : Pattern) : List Pattern :=
  db.map (fun q => if q.id = p.id then p else q)

/-- `strengthenPattern(patternId, amount, emotionalContext?)` at time
`now`: on a map hit, decay the weight by
`exp(-(now - lastAccessed) / halfLifeMillis)`, add
`amount * (1 + emotionalSimilarity)` capped at 1, stamp `lastAccessed`,
average the context into the signature, and write the pattern through to
the map and the store; on a miss, log and do nothing. -/
noncomputable def strengthenPattern (st : State) (patternId : String) (amount : ℝ)
    (ctx : Option RQuad) (now : ℝ) : State :=
  match st.patterns patternId with
  | none => st
  | some p =>
    let decayFactor := Real.exp (-(now - p.lastAccessed) / halfLifeMillis)
    let decayedWeight := p.weight * decayFactor
    let emotionalReinforcement :=
      match ctx with
      | none => 1
      | some c => 1 + calculateEmotionalSimilarity c p
    let p1 : Pattern :=
      { p with
          weight := min 1 (decayedWeight + amount * emotionalReinforcement)
          lastAccessed := now
          emotionalSignature :=
            match ctx with
            | none => p.emotionalSignature
            | some c => updateEmotionalSignature p.emotionalSignature c }
    { st with patterns := pmapSet st.patterns patternId p1
              db := dbUpdatePattern st.db p1 }

/-- `DatabaseService.findPatternsWithFacts(factIds)`: the stored patterns
containing any of the given fact ids. -/
def findPatternsWithFacts (db : List Pattern) (factIds : List String) : List Pattern :=
  db.filter (fun p => p.facts.any (fun f => factIds.contains f))

/-- `findSimilarPatterns(embedding, threshold, emotionalContext?)`:
`similarFactIds` stands for the ids returned by the external vector
search.  Patterns containing those facts are fetched from the store; with
an emotional context every returned pattern's weight is rescaled by
`1 + emotionalSimilarity`; the (rescaled) patterns are then written into
the in-process cache and returned.  The backing store is only read. -/
noncomputable def findSimilarPatterns (st : State) (similarFactIds : List String)
    (ctx : Option RQuad) : List Pattern × State :=
  let relatedPatterns := findPatternsWithFacts st.db similarFactIds
  let weightedPatterns :=
    match ctx with
    | none => relatedPatterns
    | some c =>
      relatedPatterns.map (fun p =>
        { p with weight := p.weight * (1 + calculateEmotionalSimilarity c p) })
  (weightedPatterns,
    { st with patterns := weightedPatterns.foldl (fun m p => pmapSet m p.id p) st.patterns })

end LongTermMem

namespace CognitiveSys

/-- `config.memory.emotionalDecayRate`. -/
def emotionalDecayRate : ℚ := 1 / 10

/-- `config.memory.sleepCycleFactCount`. -/
def sleepCycleFactCount : Nat := 10

/-- `CognitiveSystem.reduceEmotionalImpact`: scale every component by
`emotionalDecayRate`. -/
def reduceEmotionalImpact (impact : EQuad) : EQuad :=
  { joy := impact.joy * emotionalDecayRate
    calm := impact.calm * emotionalDecayRate
    anger := impact.anger * emotionalDecayRate
    sadness := impact.sadness * emotionalDecayRate }

/-- The `for` loop of `processSleepCycle`: apply each sampled fact's
reduced impact via `emotionalMemory.updateState`.  `storeFails` is the
oracle saying whether the awaited store write rejects for that fact; a
rejection propagates out of the loop at once (the source has no
`try`/`catch`), abandoning the remaining facts. -/
def sleepLoop (sample : List Fact) (storeFails : Fact → Bool) (emo : EQuad) :
    Except Unit EQuad :=
  match sample with
  | [] => .ok emo
  | f :: rest =>
    let emo1 := EmotionalMem.updateState emo (reduceEmotionalImpact f.emotionalImpact)
    if storeFails f then .error ()
    else sleepLoop rest storeFails emo1

/-- `CognitiveSystem.processSleepCycle`: sample the top facts by weight,
replay them at reduced impact, then consolidate working memory.  Any
rejection inside the loop propagates, skipping both the remaining facts
and the consolidation; the result type carries no failure count. -/
def processSleepCycle (wm : LRUWorkingMemory.State) (emo : EQuad)
    (storeFails : Fact → Bool) : Except Unit (LRUWorkingMemory.State × EQuad) :=
  let sample := LRUWorkingMemory.getSampleByWeight wm sleepCycleFactCount
  match sleepLoop sample storeFails emo with
  | .error e => .error e
  | .ok emo1 => .ok (LRUWorkingMemory.consolidate wm, emo1)

end CognitiveSys

/-! ### Basic structural lemmas about working memory -/

namespace LongTermMem

@[simp] lemma pmapSet_self (m : String → Option Pattern) (k : String) (v : Pattern) :
    pmapSet m k v k = some v := if_pos rfl

lemma pmapSet_ne (m : String → Option Pattern) (k : String) (v : Pattern)
    (x : String) (h : x ≠ k) : pmapSet m k v x = m x := if_neg h

end LongTermMem

namespace LRUWorkingMemory

@[simp] lemma mapSet_self (m : String → Option Fact) (k : String) (v : Fact) :
    mapSet m k v k = some v := if_pos rfl

lemma mapSet_ne (m : String → Option Fact) (k : String) (v : Fact)
    (x : String) (h : x ≠ k) : mapSet m k v x = m x := if_neg h

@[simp] lemma mapDel_self (m : String → Option Fact) (k : String) :
    mapDel m k k = none := if_pos rfl

lemma mapDel_ne (m : String → Option Fact) (k : String) (x : String) (h : x ≠ k) :
    mapDel m k x = m x := if_neg h

@[simp] lemma evictOldest_maxSize (s : State) : (evictOldest s).maxSize = s.maxSize := by
  unfold evictOldest; cases s.facts <;> rfl

@[simp] lemma evictOldest_strategy (s : State) : (evictOldest s).strategy = s.strategy := by
  unfold evictOldest; cases s.facts <;> rfl

@[simp] lemma evictByWeight_maxSize (s : State) : (evictByWeight s).maxSize = s.maxSize := by
  unfold evictByWeight
  cases s.facts <;> [rfl; (cases (List.get? _ _) <;> rfl)]

@[simp] lemma evictByWeight_strategy (s : State) : (evictByWeight s).strategy = s.strategy := by
  unfold evictByWeight
  cases s.facts <;> [rfl; (cases (List.get? _ _) <;> rfl)]

@[simp] lemma addFact_maxSize (s : State) (f : Fact) :
    (addFact s f).maxSize = s.maxSize := by
  unfold addFact
  dsimp only
  split
  · split <;> simp
  · rfl

@[simp] lemma addFact_strategy (s : State) (f : Fact) :
    (addFact s f).strategy = s.strategy := by
  unfold addFact
  dsimp only
  split
  · split <;> simp
  · rfl

@[simp] lemma insertAll_maxSize (s : State) (fs : List Fact) :
    (insertAll s fs).maxSize = s.maxSize := by
  induction fs generalizing s with
  | nil => rfl
  | cons f fs ih => simpa [insertAll] using ih (addFact s f)

@[simp] lemma insertAll_strategy (s : State) (fs : List Fact) :
    (insertAll s fs).strategy = s.strategy := by
  induction fs generalizing s with
  | nil => rfl
  | cons f fs ih => simpa [insertAll] using ih (addFact s f)

lemma addFact_facts (s : State) (f : Fact) :
    (addFact s f).facts =
      (if s.maxSize ≤ s.facts.length then
        match s.strategy with
        | .lru => evictOldest s
        | .weight => evictByWeight s
      else s).facts ++ [f] := rfl

lemma evictOldest_facts_sublist (s : State) : (evictOldest s).facts.Sublist s.facts := by
  unfold evictOldest
  split
  · exact List.Sublist.refl _
  · next f rest h => rw [h]; exact List.sublist_cons_self f rest

lemma evictByWeight_facts_sublist (s : State) : (evictByWeight s).facts.Sublist s.facts := by
  unfold evictByWeight
  split
  · exact List.Sublist.refl _
  · split
    · exact List.eraseIdx_sublist _ _
    · exact List.Sublist.refl _

end LRUWorkingMemory

/-- Claim C9: immediately after `addFact(f)` completes, `f` is a member of
`getFacts()` (indeed it is the last element): under either eviction
strategy the evicted victim is chosen among the facts that were resident
before the call (the pre-eviction buffer), and the new fact is appended
strictly afterwards, so a fact is never evicted by its own insertion. -/
theorem C9_addFact_membership (s : GoinBuck.LRUWorkingMemory.State) (f : GoinBuck.Fact) :
    f ∈ GoinBuck.LRUWorkingMemory.getFacts (GoinBuck.LRUWorkingMemory.addFact s f) ∧
    (GoinBuck.LRUWorkingMemory.getFacts
        (GoinBuck.LRUWorkingMemory.addFact s f)).getLast? = some f ∧
    ∃ resident : List GoinBuck.Fact,
      resident.Sublist s.facts ∧
      (GoinBuck.LRUWorkingMemory.addFact s f).facts = resident ++ [f] := by
  open GoinBuck.LRUWorkingMemory in
  refine ⟨?_, ?_, ?_⟩
  · simp [getFacts, addFact_facts]
  · simp [getFacts, addFact_facts]
  · rw [addFact_facts]
    split
    · cases s.strategy
      · exact ⟨_, evictOldest_facts_sublist s, rfl⟩
      · exact ⟨_, evictByWeight_facts_sublist s, rfl⟩
    · exact ⟨s.facts, List.Sublist.refl _, rfl⟩

namespace EmotionalMem

lemma clampValue_bounds (x : ℚ) : -1 ≤ clampValue x ∧ clampValue x ≤ 1 := by
  unfold clampValue
  constructor
  · exact le_max_left _ _
  · exact max_le (by norm_num) (min_le_left _ _)

lemma updateState_inBounds (s impact : EQuad) : InBounds (updateState s impact) := by
  unfold InBounds updateState
  refine ⟨?_, ?_, ?_, ?_, ?_, ?_, ?_, ?_⟩ <;>
    first
      | exact (clampValue_bounds _).1
      | exact (clampValue_bounds _).2

lemma mul_rate_bounds {q r : ℚ} (hq : -1 ≤ q) (hq' : q ≤ 1) (hr : 0 ≤ r) (hr' : r ≤ 1) :
    -1 ≤ q * r ∧ q * r ≤ 1 := by
  constructor <;> nlinarith

lemma step_inBounds {s : EQuad} (hs : InBounds s) {op : Op} (hop : ValidOp op) :
    InBounds (step s op) := by
  obtain ⟨h1, h2, h3, h4, h5, h6, h7, h8⟩ := hs
  cases op with
  | update impact => exact updateState_inBounds s impact
  | decay rate =>
    obtain ⟨hr0, hr1⟩ := hop
    exact ⟨(mul_rate_bounds h1 h2 hr0 hr1).1, (mul_rate_bounds h1 h2 hr0 hr1).2,
      (mul_rate_bounds h3 h4 hr0 hr1).1, (mul_rate_bounds h3 h4 hr0 hr1).2,
      (mul_rate_bounds h5 h6 hr0 hr1).1, (mul_rate_bounds h5 h6 hr0 hr1).2,
      (mul_rate_bounds h7 h8 hr0 hr1).1, (mul_rate_bounds h7 h8 hr0 hr1).2⟩
  | serviceDecay rate => exact updateState_inBounds s _

lemma run_inBounds {s : EQuad} (hs : InBounds s) {ops : List Op}
    (hops : ∀ op ∈ ops, ValidOp op) : InBounds (run s ops) := by
  induction ops generalizing s with
  | nil => exact hs
  | cons op ops ih =>
    exact ih (step_inBounds hs (hops op (List.mem_cons_self op ops)))
      (fun o ho => hops o (List.mem_cons_of_mem op ho))

end EmotionalMem

/-- Claim C3: starting from any state whose components lie in `[-1, 1]`
(in particular the zero initial state), every sequence of emotional-state
updates (componentwise addition followed by clamping to `[-1, 1]`) and
decays (componentwise multiplication by a decay rate in `[0, 1]`, or the
service-level clamped decay) keeps every component of the quadrant in
`[-1, 1]` at every point of the sequence. -/
theorem C3_emotional_clamp_invariant (s : GoinBuck.EQuad)
    (ops : List GoinBuck.EmotionalMem.Op)
    (hs : GoinBuck.EmotionalMem.InBounds s)
    (hops : ∀ op ∈ ops, GoinBuck.EmotionalMem.ValidOp op) :
    ∀ pre suf, ops = pre ++ suf →
      GoinBuck.EmotionalMem.InBounds (GoinBuck.EmotionalMem.run s pre) := by
  intro pre suf hsplit
  exact GoinBuck.EmotionalMem.run_inBounds hs
    (fun op ho => hops op (by rw [hsplit]; exact List.mem_append_left _ ho))

/-- Witness for C3 at a concrete input: the zero state, one overshooting
update and one halving decay. -/
theorem C3_emotional_clamp_invariant_witness :
    GoinBuck.EmotionalMem.InBounds GoinBuck.EmotionalMem.initialState ∧
    (∀ op ∈ [GoinBuck.EmotionalMem.Op.update ⟨2, 0, 0, -5⟩,
             GoinBuck.EmotionalMem.Op.decay (1/2)],
        GoinBuck.EmotionalMem.ValidOp op) ∧
    GoinBuck.EmotionalMem.InBounds
      (GoinBuck.EmotionalMem.run GoinBuck.EmotionalMem.initialState
        [GoinBuck.EmotionalMem.Op.update ⟨2, 0, 0, -5⟩,
         GoinBuck.EmotionalMem.Op.decay (1/2)]) := by
  refine ⟨by decide, ?_, ?_⟩
  · intro op hop
    fin_cases hop <;> constructor <;> norm_num
  · exact C3_emotional_clamp_invariant _ _ (by decide)
      (by intro op hop; fin_cases hop <;> constructor <;> norm_num)
      _ [] (List.append_nil _).symm

/-- Claim C4: `strengthenPattern` on a pattern id present in the store,
for every amount, emotional context and elapsed time, leaves that
pattern's weight at most 1, because the new weight is
`min(1, decayedWeight + amount * emotionalReinforcement)`. -/
theorem C4_strengthen_weight_at_most_one (st : GoinBuck.LongTermMem.State)
    (pid : String) (amount : ℝ) (ctx : Option GoinBuck.RQuad) (now : ℝ)
    (p : GoinBuck.Pattern) (h : st.patterns pid = some p) :
    ∃ p1 : GoinBuck.Pattern,
      (GoinBuck.LongTermMem.strengthenPattern st pid amount ctx now).patterns pid = some p1 ∧
      p1.weight ≤ 1 := by
  unfold GoinBuck.LongTermMem.strengthenPattern
  rw [h]
  dsimp only
  exact ⟨_, GoinBuck.LongTermMem.pmapSet_self _ _ _, min_le_left _ _⟩

/-- Fixture pattern for the C4 witness. -/
def pC4 : GoinBuck.Pattern :=
  { id := "c4p", facts := ["c4f"], weight := 1,
    emotionalSignature := ⟨0, 0, 0, 0⟩, lastAccessed := 0 }

/-- Fixture long-term-memory state for the C4 witness. -/
def stC4 : GoinBuck.LongTermMem.State :=
  { patterns := fun x => if x = "c4p" then some pC4 else none, db := [pC4] }

/-- Witness for C4: a concrete store holding one pattern, strengthened by
amount 2 with no context at time 0. -/
theorem C4_strengthen_weight_at_most_one_witness :
    stC4.patterns "c4p" = some pC4 ∧
    ∃ p1 : GoinBuck.Pattern,
      (GoinBuck.LongTermMem.strengthenPattern stC4 "c4p" 2 none 0).patterns "c4p" = some p1 ∧
      p1.weight ≤ 1 :=
  ⟨rfl, C4_strengthen_weight_at_most_one stC4 "c4p" 2 none 0 pC4 rfl⟩

/-- Fixture pattern for the C8 scenario: weight `0.5`, last accessed at
time 0. -/
noncomputable def pC8 : GoinBuck.Pattern :=
  { id := "c8p", facts := ["c8f"], weight := 1/2,
    emotionalSignature := ⟨0, 0, 0, 0⟩, lastAccessed := 0 }

/-- Fixture long-term-memory state for the C8 scenario. -/
noncomputable def stC8 : GoinBuck.LongTermMem.State :=
  { patterns := fun x => if x = "c8p" then some pC8 else none, db := [pC8] }

/-- Claim C8: strengthening a pattern of weight `0.5` whose `lastAccessed`
is exactly 30 days in the past (elapsed time = `halfLifeMillis`), with
amount `0.3` and no emotional context, applies `decayFactor = exp(-1)`,
giving decayed weight `0.5 * exp(-1) ≈ 0.184` and new weight
`min(1, 0.5 * exp(-1) + 0.3) = 0.5 * exp(-1) + 0.3 ≈ 0.484` (both
approximations within `10⁻³`). -/
theorem C8_strengthen_thirty_day_decay :
    ∃ p1 : GoinBuck.Pattern,
      (GoinBuck.LongTermMem.strengthenPattern stC8 "c8p" (3/10) none
          GoinBuck.LongTermMem.halfLifeMillis).patterns "c8p" = some p1 ∧
      p1.weight = (1/2) * Real.exp (-1) + 3/10 ∧
      |(1/2) * Real.exp (-1) - 0.184| < 1/1000 ∧
      |p1.weight - 0.484| < 1/1000 := by
  have hxy : Real.exp (-1) * Real.exp 1 = 1 := by
    rw [← Real.exp_add]; norm_num
  have hx : 0 < Real.exp (-1) := Real.exp_pos _
  have hlo : (0.3678794 : ℝ) < Real.exp (-1) := by
    nlinarith [Real.exp_one_lt_d9, hxy, hx]
  have hhi : Real.exp (-1) < (0.3678795 : ℝ) := by
    nlinarith [Real.exp_one_gt_d9, hxy, hx]
  have harg : -(GoinBuck.LongTermMem.halfLifeMillis - pC8.lastAccessed) /
      GoinBuck.LongTermMem.halfLifeMillis = (-1 : ℝ) := by
    simp only [pC8, GoinBuck.LongTermMem.halfLifeMillis]
    norm_num
  have hmin : min (1 : ℝ) ((1/2) * Real.exp (-1) + (3/10) * 1) =
      (1/2) * Real.exp (-1) + 3/10 := by
    rw [min_eq_right] <;> nlinarith
  have hpat : stC8.patterns "c8p" = some pC8 := rfl
  have hres : (GoinBuck.LongTermMem.strengthenPattern stC8 "c8p" (3/10) none
      GoinBuck.LongTermMem.halfLifeMillis).patterns "c8p" =
      some { pC8 with
              weight := (1/2) * Real.exp (-1) + 3/10
              lastAccessed := GoinBuck.LongTermMem.halfLifeMillis } := by
    unfold GoinBuck.LongTermMem.strengthenPattern
    rw [hpat]
    simp only [GoinBuck.LongTermMem.pmapSet, if_pos]
    rw [harg]
    have hw : pC8.weight = 1/2 := rfl
    rw [hw, hmin]
  refine ⟨_, hres, rfl, ?_, ?_⟩
  · rw [abs_lt]; constructor <;> nlinarith
  · show |(1/2) * Real.exp (-1) + 3/10 - 0.484| < 1/1000
    rw [abs_lt]
    constructor <;> nlinarith

/-- Fixture facts for the C5 failing input: two sampled facts, the
higher-weight one first in the sample. -/
def fS1 : GoinBuck.Fact :=
  { id := "s1", content := "S1", weight := 1, emotionalImpact := ⟨1, 0, 0, 0⟩ }

/-- Second sampled fact of the C5 failing input. -/
def fS2 : GoinBuck.Fact :=
  { id := "s2", content := "S2", weight := 0, emotionalImpact := ⟨0, 1, 0, 0⟩ }

/-- Working memory for the C5 failing input. -/
def wmC5 : GoinBuck.LRUWorkingMemory.State :=
  GoinBuck.LRUWorkingMemory.insertAll
    (GoinBuck.LRUWorkingMemory.init 10 .lru) [fS1, fS2]

/-- Store-failure oracle of the C5 failing input: the write for the first
sampled fact rejects, the one for the second would succeed. -/
def failsC5 (f : GoinBuck.Fact) : Bool := f.id == "s1"

/-- Claim C5 is refuted by the code: `processSleepCycle` has no error
handling, so when applying the first sampled fact's reduced impact fails,
the whole routine rejects — the second sampled fact is never processed,
`workingMemory.consolidate()` is skipped, and no failure count exists in
the result (its type carries none) — instead of continuing best-effort as
the specified failure semantics require. -/
theorem C5_sleep_cycle_aborts_on_first_failure :
    GoinBuck.LRUWorkingMemory.getSampleByWeight wmC5
        GoinBuck.CognitiveSys.sleepCycleFactCount = [fS1, fS2] ∧
    failsC5 fS1 = true ∧
    failsC5 fS2 = false ∧
    GoinBuck.CognitiveSys.processSleepCycle wmC5
        GoinBuck.EmotionalMem.initialState failsC5 = .error () := by
  refine ⟨by rfl, by rfl, by rfl, by rfl⟩

/-- Fixture pattern for the C6 counterexample: stored weight `0.5` and a
pure-joy emotional signature. -/
noncomputable def pC6 : GoinBuck.Pattern :=
  { id := "c6p", facts := ["c6f"], weight := 1/2,
    emotionalSignature := ⟨1, 0, 0, 0⟩, lastAccessed := 0 }

/-- Fixture long-term-memory state for the C6 counterexample: the pattern
lives in the backing store, the in-process cache starts empty. -/
noncomputable def stC6 : GoinBuck.LongTermMem.State :=
  { patterns := fun _ => none, db := [pC6] }

/-- Emotional context of the C6 counterexample. -/
def ctxC6 : GoinBuck.RQuad := ⟨1, 0, 0, 0⟩

/-- Counterexample to claim C6: after `findSimilarPatterns` with an
emotional context, the in-process pattern map does hold the rescaled
weight: the stored pattern has weight `1/2`, the emotional similarity is
`1/4`, and the cached entry afterwards has weight `1/2 * (1 + 1/4) = 5/8 ≠ 1/2` —
the rescaling is written into stored (in-process) pattern state, not only
into the returned values. -/
theorem C6_counterexample_cache_holds_rescaled_weight :
    pC6.weight = 1/2 ∧
    ∃ q : GoinBuck.Pattern,
      (GoinBuck.LongTermMem.findSimilarPatterns stC6 ["c6f"] (some ctxC6)).2.patterns "c6p" =
        some q ∧
      q.weight = 5/8 ∧ (5/8 : ℝ) ≠ 1/2 := by
  refine ⟨rfl, ?_⟩
  have hrel : GoinBuck.LongTermMem.findPatternsWithFacts stC6.db ["c6f"] = [pC6] := by
    unfold GoinBuck.LongTermMem.findPatternsWithFacts
    simp [stC6, pC6]
  unfold GoinBuck.LongTermMem.findSimilarPatterns
  rw [hrel]
  dsimp only [List.map, List.foldl]
  refine ⟨_, GoinBuck.LongTermMem.pmapSet_self _ _ _, ?_, by norm_num⟩
  show pC6.weight * (1 + GoinBuck.LongTermMem.calculateEmotionalSimilarity ctxC6 pC6) = 5/8
  unfold GoinBuck.LongTermMem.calculateEmotionalSimilarity
  show (1/2 : ℝ) * (1 + (1 * 1 + 0 * 0 + 0 * 0 + 0 * 0) / 4) = 5/8
  norm_num

/-- Claim C6 as amended: with an emotional context, the rescaling by
`1 + emotionalSimilarity` affects the returned patterns and the in-process
pattern cache (which receives exactly the rescaled patterns), while the
backing store is only read and keeps the original weights. -/
theorem C6_amended_backing_store_unchanged (st : GoinBuck.LongTermMem.State)
    (similarFactIds : List String) (ctx : Option GoinBuck.RQuad) :
    (GoinBuck.LongTermMem.findSimilarPatterns st similarFactIds ctx).2.db = st.db ∧
    (GoinBuck.LongTermMem.findSimilarPatterns st similarFactIds ctx).2.patterns =
      (GoinBuck.LongTermMem.findSimilarPatterns st similarFactIds ctx).1.foldl
        (fun m p => GoinBuck.LongTermMem.pmapSet m p.id p) st.patterns ∧
    (∀ c, ctx = some c →
      (GoinBuck.LongTermMem.findSimilarPatterns st similarFactIds ctx).1 =
        (GoinBuck.LongTermMem.findPatternsWithFacts st.db similarFactIds).map
          (fun p => { p with
            weight := p.weight * (1 + GoinBuck.LongTermMem.calculateEmotionalSimilarity c p) })) := by
  refine ⟨rfl, rfl, ?_⟩
  intro c hc
  subst hc
  rfl

namespace LRUWorkingMemory

lemma minScan_lt (rest : List Fact) : ∀ (i bi : Nat) (bw : ℚ), bi < i →
    minScan rest i bi bw < i + rest.length := by
  induction rest with
  | nil => intro i bi bw h; simpa [minScan] using h
  | cons f t ih =>
    intro i bi bw h
    unfold minScan
    simp only [List.length_cons]
    split
    · have := ih (i + 1) i f.weight (Nat.lt_succ_self i)
      omega
    · have := ih (i + 1) bi bw (Nat.lt_succ_of_lt h)
      omega

lemma minWeightIndex_lt (l : List Fact) (h : l ≠ []) : minWeightIndex l < l.length := by
  cases l with
  | nil => exact absurd rfl h
  | cons f rest =>
    have := minScan_lt rest 1 0 f.weight Nat.zero_lt_one
    simp only [minWeightIndex, List.length_cons]
    omega

lemma evictOldest_facts (s : State) (f : Fact) (rest : List Fact)
    (h : s.facts = f :: rest) : (evictOldest s).facts = rest := by
  unfold evictOldest
  split
  · next hnil => rw [h] at hnil; cases hnil
  · next f' rest' h' => rw [h] at h'; cases h'; rfl

lemma evictByWeight_facts (s : State) (h : s.facts ≠ []) :
    (evictByWeight s).facts = s.facts.eraseIdx (minWeightIndex s.facts) := by
  unfold evictByWeight
  split
  · next hnil => exact absurd hnil h
  · next f' rest' h' =>
    split
    · rfl
    · next hg =>
      rw [List.get?_eq_none] at hg
      exact absurd hg (not_le.mpr (minWeightIndex_lt s.facts h))

lemma length_evictOldest (s : State) (h : s.facts ≠ []) :
    (evictOldest s).facts.length = s.facts.length - 1 := by
  cases hf : s.facts with
  | nil => exact absurd hf h
  | cons f rest => simp [evictOldest_facts s f rest hf, hf]

lemma length_evictByWeight (s : State) (h : s.facts ≠ []) :
    (evictByWeight s).facts.length = s.facts.length - 1 := by
  rw [evictByWeight_facts s h]
  have := List.length_eraseIdx_add_one (minWeightIndex_lt s.facts h)
  omega

lemma addFact_facts_of_lt (s : State) (f : Fact) (h : s.facts.length < s.maxSize) :
    (addFact s f).facts = s.facts ++ [f] := by
  unfold addFact
  rw [if_neg (not_le.mpr h)]

lemma length_addFact_le (s : State) (f : Fact) (hms : 1 ≤ s.maxSize)
    (h : s.facts.length ≤ s.maxSize) :
    (addFact s f).facts.length ≤ s.maxSize := by
  rcases lt_or_eq_of_le h with hlt | heq
  · rw [addFact_facts_of_lt s f hlt]
    simp
    omega
  · have hne : s.facts ≠ [] := by
      intro hnil
      rw [hnil] at heq
      simp at heq
      omega
    unfold addFact
    rw [if_pos (le_of_eq heq.symm)]
    cases hstrat : s.strategy <;>
      simp [length_evictOldest s hne, length_evictByWeight s hne] <;> omega

lemma insertAll_length_le (c : Nat) (hc : 1 ≤ c) (fs : List Fact) :
    ∀ s : State, s.maxSize = c → s.facts.length ≤ c →
      (insertAll s fs).facts.length ≤ c := by
  induction fs with
  | nil => intro s hms h; exact h
  | cons f fs ih =>
    intro s hms h
    have h1 : (addFact s f).maxSize = c := by rw [addFact_maxSize, hms]
    have h2 : (addFact s f).facts.length ≤ c := by
      rw [← hms] at h hc ⊢
      exact length_addFact_le s f hc h
    exact ih (addFact s f) h1 h2

end LRUWorkingMemory

/-- Fixture fact for the C1 counterexample. -/
def fC1 : GoinBuck.Fact :=
  { id := "c1", content := "C1", weight := 1, emotionalImpact := ⟨0, 0, 0, 0⟩ }

/-- Counterexample to claim C1 as stated: a working memory constructed
with capacity 0 holds 1 fact after a single `addFact` — the buffer is at
capacity (0 ≥ 0) but is empty, so the eviction is a no-op and the append
still happens, violating `len(getFacts()) ≤ capacity`. -/
theorem C1_counterexample_capacity_zero :
    (GoinBuck.LRUWorkingMemory.getFacts
        (GoinBuck.LRUWorkingMemory.addFact
          (GoinBuck.LRUWorkingMemory.init 0 .lru) fC1)).length = 1 ∧
    ¬ (GoinBuck.LRUWorkingMemory.getFacts
        (GoinBuck.LRUWorkingMemory.addFact
          (GoinBuck.LRUWorkingMemory.init 0 .lru) fC1)).length ≤ 0 := by
  constructor
  · rfl
  · decide

/-- Claim C1 as amended (capacity at least 1): for every sequence of
`addFact` calls on a working memory constructed with capacity
`maxSize ≥ 1`, `getFacts()` has length at most `maxSize` at every point
of the sequence; and whenever the buffer is at capacity, `addFact`
evicts exactly one resident (per the configured strategy) strictly
before appending the new fact, leaving exactly `maxSize` facts. -/
theorem C1_capacity_invariant (c : Nat) (hc : 1 ≤ c)
    (strat : GoinBuck.EvictionStrategy) (fs : List GoinBuck.Fact) :
    (GoinBuck.LRUWorkingMemory.getFacts
        (GoinBuck.LRUWorkingMemory.insertAll
          (GoinBuck.LRUWorkingMemory.init c strat) fs)).length ≤ c ∧
    (∀ s : GoinBuck.LRUWorkingMemory.State, s.maxSize = c → s.facts.length = c →
      ∀ f : GoinBuck.Fact,
        (GoinBuck.LRUWorkingMemory.addFact s f).facts =
          (match s.strategy with
            | .lru => GoinBuck.LRUWorkingMemory.evictOldest s
            | .weight => GoinBuck.LRUWorkingMemory.evictByWeight s).facts ++ [f] ∧
        (match s.strategy with
          | .lru => GoinBuck.LRUWorkingMemory.evictOldest s
          | .weight => GoinBuck.LRUWorkingMemory.evictByWeight s).facts.length = c - 1) := by
  open GoinBuck.LRUWorkingMemory in
  constructor
  · exact insertAll_length_le c hc fs (init c strat) rfl (by simp [init])
  · intro s hms hlen f
    have hne : s.facts ≠ [] := by
      intro hnil; rw [hnil] at hlen; simp at hlen; omega
    constructor
    · unfold addFact
      rw [if_pos (by omega)]
    · have h1 := length_evictOldest s hne
      have h2 := length_evictByWeight s hne
      cases hstrat : s.strategy <;> simp only [h1, h2, hlen]

/-- Witness for C1 at a concrete input: capacity 1, two inserted facts. -/
theorem C1_capacity_invariant_witness :
    1 ≤ 1 ∧
    ((GoinBuck.LRUWorkingMemory.getFacts
        (GoinBuck.LRUWorkingMemory.insertAll
          (GoinBuck.LRUWorkingMemory.init 1 .lru) [fC1, fS1])).length ≤ 1 ∧
      (∀ s : GoinBuck.LRUWorkingMemory.State, s.maxSize = 1 → s.facts.length = 1 →
        ∀ f : GoinBuck.Fact,
          (GoinBuck.LRUWorkingMemory.addFact s f).facts =
            (match s.strategy with
              | .lru => GoinBuck.LRUWorkingMemory.evictOldest s
              | .weight => GoinBuck.LRUWorkingMemory.evictByWeight s).facts ++ [f] ∧
          (match s.strategy with
            | .lru => GoinBuck.LRUWorkingMemory.evictOldest s
            | .weight => GoinBuck.LRUWorkingMemory.evictByWeight s).facts.length = 1 - 1)) :=
  ⟨le_refl 1, C1_capacity_invariant 1 (le_refl 1) .lru [fC1, fS1]⟩

namespace LRUWorkingMemory

lemma minScan_spec (rest : List Fact) : ∀ (i bi : Nat) (bw : ℚ),
    (minScan rest i bi bw = bi ∧ ∀ f ∈ rest, bw ≤ f.weight) ∨
    (∃ j m, rest.get? j = some m ∧ minScan rest i bi bw = i + j ∧ m.weight < bw ∧
      (∀ f ∈ rest, m.weight ≤ f.weight) ∧
      (∀ k g, rest.get? k = some g → k < j → m.weight < g.weight)) := by
  induction rest with
  | nil =>
    intro i bi bw
    left
    exact ⟨rfl, by simp⟩
  | cons f t ih =>
    intro i bi bw
    unfold minScan
    by_cases hf : f.weight < bw
    · rw [if_pos hf]
      rcases ih (i + 1) i f.weight with ⟨h1, h2⟩ | ⟨j, m, hg, hr, hlt, hmin, hfirst⟩
      · right
        refine ⟨0, f, rfl, by rw [h1]; omega, hf, ?_, ?_⟩
        · intro x hx
          rcases List.mem_cons.mp hx with hx | hx
          · rw [hx]
          · exact h2 x hx
        · intro k g _ hk
          exact absurd hk (Nat.not_lt_zero k)
      · right
        refine ⟨j + 1, m, by simpa using hg, by rw [hr]; omega,
          lt_trans hlt hf, ?_, ?_⟩
        · intro x hx
          rcases List.mem_cons.mp hx with hx | hx
          · rw [hx]; exact le_of_lt hlt
          · exact hmin x hx
        · intro k g hk hklt
          cases k with
          | zero =>
            simp only [List.get?_cons_zero, Option.some_inj] at hk
            rw [← hk]; exact hlt
          | succ k' =>
            simp only [List.get?_cons_succ] at hk
            exact hfirst k' g hk (by omega)
    · rw [if_neg hf]
      push_neg at hf
      rcases ih (i + 1) bi bw with ⟨h1, h2⟩ | ⟨j, m, hg, hr, hlt, hmin, hfirst⟩
      · left
        refine ⟨h1, ?_⟩
        intro x hx
        rcases List.mem_cons.mp hx with hx | hx
        · rw [hx]; exact hf
        · exact h2 x hx
      · right
        refine ⟨j + 1, m, by simpa using hg, by rw [hr]; omega, hlt, ?_, ?_⟩
        · intro x hx
          rcases List.mem_cons.mp hx with hx | hx
          · rw [hx]; exact le_of_lt (lt_of_lt_of_le hlt hf)
          · exact hmin x hx
        · intro k g hk hklt
          cases k with
          | zero =>
            simp only [List.get?_cons_zero, Option.some_inj] at hk
            rw [← hk]; exact lt_of_lt_of_le hlt hf
          | succ k' =>
            simp only [List.get?_cons_succ] at hk
            exact hfirst k' g hk (by omega)

lemma minWeightIndex_spec (l : List Fact) (h : l ≠ []) :
    ∃ m, l.get? (minWeightIndex l) = some m ∧ (∀ f ∈ l, m.weight ≤ f.weight) ∧
      (∀ k g, l.get? k = some g → k < minWeightIndex l → m.weight < g.weight) := by
  cases l with
  | nil => exact absurd rfl h
  | cons f t =>
    rw [show minWeightIndex (f :: t) = minScan t 1 0 f.weight from rfl]
    rcases minScan_spec t 1 0 f.weight with ⟨h1, h2⟩ | ⟨j, m, hg, hr, hlt, hmin, hfirst⟩
    · refine ⟨f, by rw [h1]; rfl, ?_, ?_⟩
      · intro x hx
        rcases List.mem_cons.mp hx with hx | hx
        · rw [hx]
        · exact h2 x hx
      · intro k g _ hk
        rw [h1] at hk
        exact absurd hk (Nat.not_lt_zero k)
    · refine ⟨m, ?_, ?_, ?_⟩
      · rw [hr]
        have : 1 + j = j + 1 := by omega
        rw [this]
        simpa using hg
      · intro x hx
        rcases List.mem_cons.mp hx with hx | hx
        · rw [hx]; exact le_of_lt hlt
        · exact hmin x hx
      · intro k g hk hklt
        rw [hr] at hklt
        cases k with
        | zero =>
          simp only [List.get?_cons_zero, Option.some_inj] at hk
          rw [← hk]; exact hlt
        | succ k' =>
          simp only [List.get?_cons_succ] at hk
          exact hfirst k' g hk (by omega)

lemma insertAll_facts_no_evict (fs : List Fact) : ∀ s : State,
    s.facts.length + fs.length ≤ s.maxSize →
    (insertAll s fs).facts = s.facts ++ fs := by
  induction fs with
  | nil => intro s _; simp [insertAll]
  | cons f fs ih =>
    intro s h
    simp only [List.length_cons] at h
    have hlt : s.facts.length < s.maxSize := by omega
    have h1 : (addFact s f).facts = s.facts ++ [f] := addFact_facts_of_lt s f hlt
    have h2 : (insertAll (addFact s f) fs).facts = (addFact s f).facts ++ fs := by
      apply ih
      rw [h1, addFact_maxSize]
      simp only [List.length_append, List.length_cons, List.length_nil]
      omega
    calc (insertAll s (f :: fs)).facts = (insertAll (addFact s f) fs).facts := rfl
      _ = (s.facts ++ [f]) ++ fs := by rw [h2, h1]
      _ = s.facts ++ (f :: fs) := by simp

end LRUWorkingMemory

/-- Counterexample to claim C2 as stated: with capacity 1 and
strategy = weight, insert B (weight 1) and then A (weight 0).  The
eviction for A's insertion runs before A is appended, scanning only the
resident buffer `[B]`, so B is evicted and the buffer ends as `[A]` —
but A is the globally-minimum-weight fact among all 2 inserted facts, so
the claim would require A to be absent and B present. -/
theorem C2_counterexample_new_fact_is_global_min :
    GoinBuck.LRUWorkingMemory.getFacts
        (GoinBuck.LRUWorkingMemory.insertAll
          (GoinBuck.LRUWorkingMemory.init 1 .weight) [fS1, fS2]) = [fS2] ∧
    (∀ f ∈ [fS1, fS2], fS2.weight ≤ f.weight) ∧
    fS2.weight ≠ fS1.weight := by
  refine ⟨rfl, ?_, by decide⟩
  intro f hf
  fin_cases hf <;> decide

/-- Claim C2 as amended: inserting `c + 1` facts (`c ≥ 1`) into an empty
weight-strategy memory of capacity `c` evicts, at the final insertion,
the first-occurring minimum-weight fact among the `c` facts resident
before that insertion (i.e. among the first `c` inserted facts, not among
all `c + 1`): the final buffer is the first `c` facts with the fact at
`minWeightIndex` removed, followed by the new fact; the removed index
holds a fact of minimal weight among the first `c`, ties broken by lowest
index. -/
theorem C2_weight_eviction (c : Nat) (hc : 1 ≤ c) (fs : List GoinBuck.Fact)
    (hlen : fs.length = c) (g : GoinBuck.Fact) :
    GoinBuck.LRUWorkingMemory.getFacts
        (GoinBuck.LRUWorkingMemory.insertAll
          (GoinBuck.LRUWorkingMemory.init c .weight) (fs ++ [g])) =
      fs.eraseIdx (GoinBuck.LRUWorkingMemory.minWeightIndex fs) ++ [g] ∧
    ∃ m : GoinBuck.Fact,
      fs.get? (GoinBuck.LRUWorkingMemory.minWeightIndex fs) = some m ∧
      (∀ f ∈ fs, m.weight ≤ f.weight) ∧
      (∀ k g', fs.get? k = some g' →
        k < GoinBuck.LRUWorkingMemory.minWeightIndex fs → m.weight < g'.weight) := by
  open GoinBuck.LRUWorkingMemory in
  have hne : fs ≠ [] := by
    intro hnil; rw [hnil] at hlen; simp at hlen; omega
  have hfill : (insertAll (init c .weight) fs).facts = fs := by
    have := insertAll_facts_no_evict fs (init c .weight) (by simp [init, hlen])
    simpa [init] using this
  set s1 := insertAll (init c .weight) fs with hs1
  have hms : s1.maxSize = c := by rw [hs1, insertAll_maxSize]; rfl
  have hstrat : s1.strategy = .weight := by rw [hs1, insertAll_strategy]; rfl
  have hne1 : s1.facts ≠ [] := by rw [hfill]; exact hne
  have hstep : (addFact s1 g).facts = (evictByWeight s1).facts ++ [g] := by
    unfold addFact
    rw [if_pos (by rw [hms, hfill, hlen]), hstrat]
  constructor
  · show (insertAll (init c .weight) (fs ++ [g])).facts = _
    rw [show insertAll (init c .weight) (fs ++ [g]) = addFact s1 g by
      rw [hs1]; simp [insertAll, List.foldl_append]]
    rw [hstep, evictByWeight_facts s1 hne1, hfill]
  · have := minWeightIndex_spec fs hne
    exact this

/-- Witness for C2 (amended) at a concrete input: capacity 2, facts of
weights 1 and 0 followed by a third fact. -/
theorem C2_weight_eviction_witness :
    (1 ≤ 2 ∧ ([fC1, fS2] : List GoinBuck.Fact).length = 2) ∧
    (GoinBuck.LRUWorkingMemory.getFacts
        (GoinBuck.LRUWorkingMemory.insertAll
          (GoinBuck.LRUWorkingMemory.init 2 .weight) ([fC1, fS2] ++ [fS1])) =
      [fC1, fS2].eraseIdx (GoinBuck.LRUWorkingMemory.minWeightIndex [fC1, fS2]) ++ [fS1] ∧
    ∃ m : GoinBuck.Fact,
      ([fC1, fS2] : List GoinBuck.Fact).get?
          (GoinBuck.LRUWorkingMemory.minWeightIndex [fC1, fS2]) = some m ∧
      (∀ f ∈ [fC1, fS2], m.weight ≤ f.weight) ∧
      (∀ k g', ([fC1, fS2] : List GoinBuck.Fact).get? k = some g' →
        k < GoinBuck.LRUWorkingMemory.minWeightIndex [fC1, fS2] →
          m.weight < g'.weight)) :=
  ⟨⟨by decide, by decide⟩, C2_weight_eviction 2 (by decide) [fC1, fS2] (by decide) fS1⟩

namespace LRUWorkingMemory

lemma consolidate_eq_of_none (s : State)
    (hM : listMax (s.facts.map Fact.weight) = none) : consolidate s = s := by
  unfold consolidate; rw [hM]

lemma consolidate_eq_of_nonpos (s : State) (M : ℚ)
    (hM : listMax (s.facts.map Fact.weight) = some M) (h : ¬ 0 < M) :
    consolidate s = s := by
  unfold consolidate; rw [hM]; exact if_neg h

lemma consolidate_facts_of_pos (s : State) (M : ℚ)
    (hM : listMax (s.facts.map Fact.weight) = some M) (hpos : 0 < M) :
    (consolidate s).facts = s.facts.map (fun f => { f with weight := f.weight / M }) := by
  unfold consolidate
  rw [hM]
  dsimp only
  rw [if_pos hpos]

lemma listMax_map_div (l : List ℚ) (M : ℚ) (hM : 0 ≤ M) :
    listMax (l.map (fun x => x / M)) = (listMax l).map (fun x => x / M) := by
  induction l with
  | nil => rfl
  | cons x xs ih =>
    simp only [List.map_cons]
    rw [show listMax (x / M :: xs.map (fun x => x / M)) =
        (match listMax (xs.map (fun x => x / M)) with
          | none => some (x / M)
          | some m => some (max (x / M) m)) from rfl]
    rw [show listMax (x :: xs) =
        (match listMax xs with
          | none => some x
          | some m => some (max x m)) from rfl]
    rw [ih]
    cases hxs : listMax xs with
    | none => rfl
    | some m =>
      simp only [Option.map_some']
      rw [max_div_div_right hM]

end LRUWorkingMemory

/-- Claim C7: `consolidate()` twice in a row without intervening inserts
leaves every fact's weight unchanged after the second call.  The first
call divides all weights by the current maximum when it is positive
(no-op when the buffer is empty or the maximum is not positive); after
such a division the maximum weight is exactly `1`, so the second call
divides by `1` and changes nothing; in the no-op cases both calls leave
the buffer untouched. -/
theorem C7_consolidate_idempotent (s : GoinBuck.LRUWorkingMemory.State) :
    (GoinBuck.LRUWorkingMemory.consolidate
        (GoinBuck.LRUWorkingMemory.consolidate s)).facts =
      (GoinBuck.LRUWorkingMemory.consolidate s).facts := by
  open GoinBuck.LRUWorkingMemory in
  cases hM : listMax (s.facts.map GoinBuck.Fact.weight) with
  | none => simp only [consolidate_eq_of_none s hM]
  | some M =>
    by_cases hpos : 0 < M
    · have hs1 := consolidate_facts_of_pos s M hM hpos
      have hmap : (consolidate s).facts.map GoinBuck.Fact.weight =
          (s.facts.map GoinBuck.Fact.weight).map (fun x => x / M) := by
        rw [hs1, List.map_map, List.map_map]; rfl
      have hmax1 : listMax ((consolidate s).facts.map GoinBuck.Fact.weight) = some 1 := by
        rw [hmap, listMax_map_div _ M (le_of_lt hpos), hM]
        simp [div_self (ne_of_gt hpos)]
      have h2 := consolidate_facts_of_pos (consolidate s) 1 hmax1 one_pos
      rw [h2]
      have hone : ∀ f : GoinBuck.Fact,
          ({ f with weight := f.weight / 1 } : GoinBuck.Fact) = f := by
        intro f; rw [div_one]
      calc (consolidate s).facts.map (fun f => { f with weight := f.weight / 1 })
          = (consolidate s).facts.map id :=
            List.map_congr_left (fun a _ => hone a)
        _ = (consolidate s).facts := List.map_id _
    · simp only [consolidate_eq_of_nonpos s M hM hpos]

namespace ListAux

lemma map_eraseIdx {α β : Type} (f : α → β) (l : List α) :
    ∀ i, (l.eraseIdx i).map f = (l.map f).eraseIdx i := by
  induction l with
  | nil => intro i; rfl
  | cons x xs ih =>
    intro i
    cases i with
    | zero => rfl
    | succ i =>
      simp only [List.eraseIdx_cons_succ, List.map_cons, ih]

lemma not_mem_eraseIdx_self {α : Type} {l : List α} (h : l.Nodup) :
    ∀ {j : Nat} {x : α}, l.get? j = some x → x ∉ l.eraseIdx j := by
  induction l with
  | nil => intro j x hj; cases hj
  | cons y ys ih =>
    intro j x hj hmem
    cases j with
    | zero =>
      simp only [List.get?_cons_zero, Option.some_inj] at hj
      subst hj
      rw [List.eraseIdx_cons_zero] at hmem
      exact (List.nodup_cons.mp h).1 hmem
    | succ j =>
      simp only [List.get?_cons_succ] at hj
      rw [List.eraseIdx_cons_succ] at hmem
      rcases List.mem_cons.mp hmem with rfl | hmem'
      · exact (List.nodup_cons.mp h).1 (List.get?_mem hj)
      · exact ih (List.nodup_cons.mp h).2 hj hmem'

lemma mem_eraseIdx_of_ne {α : Type} {l : List α} :
    ∀ {j i : Nat} {g : α}, l.get? j = some g → j ≠ i → g ∈ l.eraseIdx i := by
  induction l with
  | nil => intro j i g hj _; cases hj
  | cons y ys ih =>
    intro j i g hj hne
    cases i with
    | zero =>
      rw [List.eraseIdx_cons_zero]
      cases j with
      | zero => exact absurd rfl hne
      | succ j =>
        simp only [List.get?_cons_succ] at hj
        exact List.get?_mem hj
    | succ i =>
      rw [List.eraseIdx_cons_succ]
      cases j with
      | zero =>
        simp only [List.get?_cons_zero, Option.some_inj] at hj
        subst hj
        exact List.mem_cons_self _ _
      | succ j =>
        simp only [List.get?_cons_succ] at hj
        exact List.mem_cons_of_mem _ (ih hj (by omega))

lemma set_get?_same {α : Type} {l : List α} :
    ∀ {i : Nat} {a : α}, l.get? i = some a → l.set i a = l := by
  induction l with
  | nil => intro i a h; cases h
  | cons y ys ih =>
    intro i a h
    cases i with
    | zero =>
      simp only [List.get?_cons_zero, Option.some_inj] at h
      subst h
      rfl
    | succ i =>
      simp only [List.get?_cons_succ] at h
      rw [List.set_cons_succ, ih h]

lemma eraseIdx_set_same {α : Type} (l : List α) :
    ∀ (i : Nat) (a : α), (l.set i a).eraseIdx i = l.eraseIdx i := by
  induction l with
  | nil => intro i a; rfl
  | cons y ys ih =>
    intro i a
    cases i with
    | zero => rfl
    | succ i =>
      rw [List.set_cons_succ, List.eraseIdx_cons_succ, List.eraseIdx_cons_succ, ih]

end ListAux

namespace LRUWorkingMemory

lemma findIndex_eq_none_iff (pred : Fact → Bool) (l : List Fact) :
    findIndex pred l = none ↔ ∀ f ∈ l, pred f = false := by
  induction l with
  | nil => simp [findIndex]
  | cons f t ih =>
    unfold findIndex
    by_cases hp : pred f
    · rw [if_pos hp]
      simp [hp]
    · rw [if_neg hp]
      rw [Option.map_eq_none', ih, List.forall_mem_cons]
      simp [Bool.of_not_eq_true hp]

lemma findIndex_eq_some (pred : Fact → Bool) (l : List Fact) :
    ∀ i, findIndex pred l = some i → ∃ g, l.get? i = some g ∧ pred g = true := by
  induction l with
  | nil => intro i h; cases h
  | cons f t ih =>
    intro i h
    unfold findIndex at h
    by_cases hp : pred f
    · rw [if_pos hp] at h
      simp only [Option.some_inj] at h
      subst h
      exact ⟨f, rfl, hp⟩
    · rw [if_neg hp] at h
      cases hft : findIndex pred t with
      | none => rw [hft] at h; cases h
      | some j =>
        rw [hft] at h
        simp only [Option.map_some', Option.some_inj] at h
        subst h
        obtain ⟨g, hg, hpg⟩ := ih j hft
        exact ⟨g, by simpa [List.get?_cons_succ] using hg, hpg⟩

/-- The coherence invariant of claim C10 (together with the no-duplicate-ids
property that makes it inductive): the ordered buffer and the id-indexed
map hold exactly the same facts — every buffer fact is the map's entry for
its id, every map entry is in the buffer under its key — and ids are not
duplicated in the buffer. -/
def Coherent (s : State) : Prop :=
  (s.facts.map Fact.id).Nodup ∧
  (∀ f ∈ s.facts, s.factMap f.id = some f) ∧
  (∀ k f, s.factMap k = some f → f ∈ s.facts ∧ f.id = k)

lemma Coherent.mem_unique {s : State} (hc : Coherent s) {g1 g2 : Fact}
    (h1 : g1 ∈ s.facts) (h2 : g2 ∈ s.facts) (hid : g1.id = g2.id) : g1 = g2 := by
  have e1 := hc.2.1 g1 h1
  have e2 := hc.2.1 g2 h2
  rw [hid] at e1
  rw [e1] at e2
  exact Option.some_inj.mp e2

lemma Coherent.facts_nodup {s : State} (hc : Coherent s) : s.facts.Nodup :=
  List.Nodup.of_map Fact.id hc.1

lemma coherent_of_del_idx {s : State} (hc : Coherent s) {j : Nat} {m : Fact}
    (hm : s.facts.get? j = some m) (s1 : State)
    (hfacts : s1.facts = s.facts.eraseIdx j)
    (hmap : s1.factMap = mapDel s.factMap m.id) : Coherent s1 := by
  obtain ⟨hnd, hforward, hback⟩ := hc
  have hmmem : m ∈ s.facts := List.get?_mem hm
  have hnotmem : m ∉ s.facts.eraseIdx j :=
    ListAux.not_mem_eraseIdx_self (List.Nodup.of_map Fact.id hnd) hm
  refine ⟨?_, ?_, ?_⟩
  · rw [hfacts, ListAux.map_eraseIdx]
    exact List.Nodup.sublist (List.eraseIdx_sublist _ _) hnd
  · intro g hg
    rw [hfacts] at hg
    have hgmem : g ∈ s.facts := (List.eraseIdx_sublist _ _).mem hg
    have hgid : g.id ≠ m.id := by
      intro he
      have : g = m := Coherent.mem_unique ⟨hnd, hforward, hback⟩ hgmem hmmem he
      rw [this] at hg
      exact hnotmem hg
    rw [hmap, mapDel_ne _ _ _ hgid]
    exact hforward g hgmem
  · intro k g hk
    rw [hmap] at hk
    by_cases hkm : k = m.id
    · rw [hkm, mapDel_self] at hk
      cases hk
    · rw [mapDel_ne _ _ _ hkm] at hk
      obtain ⟨hmem, hid⟩ := hback k g hk
      obtain ⟨j', hj⟩ := List.get?_of_mem hmem
      have hjne : j' ≠ j := by
        intro he
        rw [he, hm] at hj
        have : m = g := Option.some_inj.mp hj
        rw [← this] at hid
        exact hkm hid.symm
      rw [hfacts]
      exact ⟨ListAux.mem_eraseIdx_of_ne hj hjne, hid⟩

lemma evictOldest_eq (s : State) (f : Fact) (rest : List Fact)
    (hf : s.facts = f :: rest) :
    evictOldest s = { s with facts := rest, factMap := mapDel s.factMap f.id,
                             evictions := s.evictions + 1 } := by
  unfold evictOldest
  split
  · next hnil => rw [hf] at hnil; cases hnil
  · next f' rest' h' =>
    rw [hf] at h'
    injection h' with h1 h2
    subst h1
    subst h2
    rfl

lemma evictByWeight_eq (s : State) (hne : s.facts ≠ []) {m : Fact}
    (hm : s.facts.get? (minWeightIndex s.facts) = some m) :
    evictByWeight s =
      { s with facts := s.facts.eraseIdx (minWeightIndex s.facts),
               factMap := mapDel s.factMap m.id,
               evictions := s.evictions + 1 } := by
  unfold evictByWeight
  split
  · next hnil => exact absurd hnil hne
  · rw [hm]

lemma coherent_evictOldest {s : State} (hc : Coherent s) : Coherent (evictOldest s) := by
  cases hf : s.facts with
  | nil =>
    have : evictOldest s = s := by unfold evictOldest; rw [hf]
    rw [this]
    exact hc
  | cons f rest =>
    have hm : s.facts.get? 0 = some f := by rw [hf]; rfl
    refine coherent_of_del_idx hc hm (evictOldest s) ?_ ?_
    · rw [evictOldest_eq s f rest hf, hf]
      rfl
    · rw [evictOldest_eq s f rest hf]

lemma coherent_evictByWeight {s : State} (hc : Coherent s) : Coherent (evictByWeight s) := by
  cases hf : s.facts with
  | nil =>
    have : evictByWeight s = s := by unfold evictByWeight; rw [hf]
    rw [this]
    exact hc
  | cons f0 rest0 =>
    have hne : s.facts ≠ [] := by rw [hf]; simp
    obtain ⟨m, hm, _, _⟩ := minWeightIndex_spec s.facts hne
    refine coherent_of_del_idx hc hm (evictByWeight s) ?_ ?_
    · rw [evictByWeight_eq s hne hm]
    · rw [evictByWeight_eq s hne hm]

lemma coherent_clear (s : State) : Coherent (clear s) := by
  refine ⟨by simp [clear], by simp [clear], ?_⟩
  intro k f hk
  cases hk

lemma coherent_deleteFact {s : State} (hc : Coherent s) (id : String) :
    Coherent (deleteFact s id) := by
  obtain ⟨hnd, hforward, hback⟩ := hc
  refine ⟨?_, ?_, ?_⟩
  · exact List.Nodup.sublist (List.Sublist.map _ (List.filter_sublist _)) hnd
  · intro g hg
    obtain ⟨hgmem, hpg⟩ := List.mem_filter.mp hg
    have hgid : g.id ≠ id := of_decide_eq_true hpg
    show mapDel s.factMap id g.id = some g
    rw [mapDel_ne _ _ _ hgid]
    exact hforward g hgmem
  · intro k g hk
    by_cases hki : k = id
    · rw [show (deleteFact s id).factMap k = mapDel s.factMap id k from rfl, hki,
        mapDel_self] at hk
      cases hk
    · rw [show (deleteFact s id).factMap k = mapDel s.factMap id k from rfl,
        mapDel_ne _ _ _ hki] at hk
      obtain ⟨hmem, hid⟩ := hback k g hk
      refine ⟨List.mem_filter.mpr ⟨hmem, decide_eq_true ?_⟩, hid⟩
      rw [hid]
      exact hki

lemma coherent_addFact {s : State} (hc : Coherent s) (f : Fact)
    (hfresh : f.id ∉ s.facts.map Fact.id) : Coherent (addFact s f) := by
  have hstep : ∀ s1 : State, Coherent s1 → f.id ∉ s1.facts.map Fact.id →
      Coherent { s1 with factMap := mapSet s1.factMap f.id f, facts := s1.facts ++ [f] } := by
    intro s1 hc1 hfresh1
    obtain ⟨hnd, hforward, hback⟩ := hc1
    refine ⟨?_, ?_, ?_⟩
    · rw [List.map_append]
      rw [List.nodup_append]
      refine ⟨hnd, by simp, ?_⟩
      intro a ha
      simp only [List.map_cons, List.map_nil, List.mem_singleton]
      intro he
      rw [he] at ha
      exact hfresh1 ha
    · intro g hg
      rcases List.mem_append.mp hg with hg' | hg'
      · have hgid : g.id ≠ f.id := by
          intro he
          exact hfresh1 (he ▸ List.mem_map_of_mem Fact.id hg')
        show mapSet s1.factMap f.id f g.id = some g
        rw [mapSet_ne _ _ _ _ hgid]
        exact hforward g hg'
      · rw [List.mem_singleton.mp hg']
        exact mapSet_self _ _ _
    · intro k g hk
      replace hk : mapSet s1.factMap f.id f k = some g := hk
      by_cases hkf : k = f.id
      · rw [hkf, mapSet_self] at hk
        cases hk
        exact ⟨List.mem_append.mpr (Or.inr (List.mem_singleton.mpr rfl)), hkf.symm⟩
      · rw [mapSet_ne _ _ _ _ hkf] at hk
        obtain ⟨hmem, hid⟩ := hback k g hk
        exact ⟨List.mem_append.mpr (Or.inl hmem), hid⟩
  unfold addFact
  dsimp only
  split
  · cases hstrat : s.strategy
    · exact hstep (evictOldest s) (coherent_evictOldest hc)
        (fun hmem => hfresh (List.Sublist.map Fact.id
          (evictOldest_facts_sublist s) |>.mem hmem))
    · exact hstep (evictByWeight s) (coherent_evictByWeight hc)
        (fun hmem => hfresh (List.Sublist.map Fact.id
          (evictByWeight_facts_sublist s) |>.mem hmem))
  · exact hstep s hc hfresh

lemma lookup_foldl_set_of_not_mem (l : List Fact) :
    ∀ (m0 : String → Option Fact) (k : String), k ∉ l.map Fact.id →
      (l.foldl (fun mp f => mapSet mp f.id f) m0) k = m0 k := by
  induction l with
  | nil => intro m0 k _; rfl
  | cons f t ih =>
    intro m0 k hk
    simp only [List.map_cons, List.mem_cons] at hk
    push_neg at hk
    show (t.foldl (fun mp f => mapSet mp f.id f) (mapSet m0 f.id f)) k = m0 k
    rw [ih (mapSet m0 f.id f) k hk.2, mapSet_ne _ _ _ _ hk.1]

lemma lookup_foldl_set_of_mem (l : List Fact) :
    ∀ (m0 : String → Option Fact) (g : Fact), (l.map Fact.id).Nodup → g ∈ l →
      (l.foldl (fun mp f => mapSet mp f.id f) m0) g.id = some g := by
  induction l with
  | nil => intro _ g _ hg; cases hg
  | cons f t ih =>
    intro m0 g hnd hg
    simp only [List.map_cons, List.nodup_cons] at hnd
    rcases List.mem_cons.mp hg with rfl | hg'
    · show (t.foldl (fun mp f => mapSet mp f.id f) (mapSet m0 g.id g)) g.id = some g
      rw [lookup_foldl_set_of_not_mem t _ g.id hnd.1, mapSet_self]
    · exact ih (mapSet m0 f.id f) g hnd.2 hg'

lemma consolidate_factMap_of_pos (s : State) (M : ℚ)
    (hM : listMax (s.facts.map Fact.weight) = some M) (hpos : 0 < M) :
    (consolidate s).factMap =
      (s.facts.map (fun f => { f with weight := f.weight / M })).foldl
        (fun mp f => mapSet mp f.id f) s.factMap := by
  unfold consolidate
  rw [hM]
  dsimp only
  rw [if_pos hpos]

lemma coherent_consolidate {s : State} (hc : Coherent s) : Coherent (consolidate s) := by
  cases hM : listMax (s.facts.map Fact.weight) with
  | none => rw [consolidate_eq_of_none s hM]; exact hc
  | some M =>
    by_cases hpos : 0 < M
    · have hfacts := consolidate_facts_of_pos s M hM hpos
      have hmap := consolidate_factMap_of_pos s M hM hpos
      obtain ⟨hnd, hforward, hback⟩ := hc
      have hids : (s.facts.map (fun f => { f with weight := f.weight / M })).map Fact.id
          = s.facts.map Fact.id := by
        rw [List.map_map]
        rfl
      refine ⟨?_, ?_, ?_⟩
      · rw [hfacts, hids]
        exact hnd
      · intro g hg
        rw [hfacts] at hg
        rw [hmap]
        exact lookup_foldl_set_of_mem _ _ g (by rw [hids]; exact hnd) hg
      · intro k g hk
        rw [hmap] at hk
        by_cases hkin :
            k ∈ (s.facts.map (fun f => { f with weight := f.weight / M })).map Fact.id
        · obtain ⟨g', hg', hid'⟩ := List.mem_map.mp hkin
          have hlook := lookup_foldl_set_of_mem _ s.factMap g'
            (by rw [hids]; exact hnd) hg'
          rw [hid'] at hlook
          rw [hlook] at hk
          cases hk
          rw [hfacts]
          exact ⟨hg', hid'⟩
        · rw [lookup_foldl_set_of_not_mem _ s.factMap k hkin] at hk
          obtain ⟨hmem, hid⟩ := hback k g hk
          exact absurd (by rw [hids]; exact hid ▸ List.mem_map_of_mem Fact.id hmem) hkin
    · rw [consolidate_eq_of_nonpos s M hM hpos]
      exact hc

lemma coherent_set_idx {s : State} (hc : Coherent s) {i : Nat} {gi : Fact}
    (hgi : s.facts.get? i = some gi) (fact : Fact) (hid : fact.id = gi.id)
    (s1 : State) (hfacts : s1.facts = s.facts.set i fact)
    (hmap : s1.factMap = mapSet s.factMap gi.id fact) : Coherent s1 := by
  obtain ⟨hnd, hforward, hback⟩ := hc
  have hilen : i < s.facts.length := by
    rw [List.get?_eq_some] at hgi
    exact hgi.1
  have hnodup : s.facts.Nodup := List.Nodup.of_map Fact.id hnd
  have hids : s1.facts.map Fact.id = s.facts.map Fact.id := by
    rw [hfacts, List.map_set, hid]
    exact ListAux.set_get?_same (by rw [List.get?_map, hgi]; rfl)
  refine ⟨by rw [hids]; exact hnd, ?_, ?_⟩
  · intro g hg
    rw [hfacts] at hg
    rcases eq_or_ne g fact with rfl | hgf
    · rw [hmap, ← hid, mapSet_self]
    · have hgmem : g ∈ s.facts := by
        rcases List.mem_or_eq_of_mem_set hg with h | h
        · exact h
        · exact absurd h hgf
      have hgid : g.id ≠ gi.id := by
        intro he
        obtain ⟨j, hj⟩ := List.get?_of_mem hg
        by_cases hji : j = i
        · rw [hji, List.get?_set_eq_of_lt _ hilen] at hj
          exact hgf (Option.some_inj.mp hj).symm
        · rw [List.get?_set_ne _ _ (Ne.symm hji)] at hj
          have hggi : g = gi := Coherent.mem_unique ⟨hnd, hforward, hback⟩ hgmem
            (List.get?_mem hgi) he
          have : i = j := by
            apply List.get?_inj (by simpa using hilen) hnd
            rw [List.get?_map, List.get?_map, hgi, hj, hggi]
          exact hji this.symm
      rw [hmap, mapSet_ne _ _ _ _ hgid]
      exact hforward g hgmem
  · intro k g hk
    rw [hmap] at hk
    by_cases hkg : k = gi.id
    · rw [hkg, mapSet_self] at hk
      cases hk
      refine ⟨?_, by rw [hid, hkg]⟩
      rw [hfacts]
      exact List.get?_mem (List.get?_set_eq_of_lt _ hilen)
    · rw [mapSet_ne _ _ _ _ hkg] at hk
      obtain ⟨hmem, hidk⟩ := hback k g hk
      obtain ⟨j, hj⟩ := List.get?_of_mem hmem
      have hji : j ≠ i := by
        intro he
        rw [he, hgi] at hj
        have hgig : gi = g := Option.some_inj.mp hj
        rw [← hgig] at hidk
        exact hkg hidk.symm
      refine ⟨?_, hidk⟩
      rw [hfacts]
      exact List.get?_mem (by rw [List.get?_set_ne _ _ (Ne.symm hji)]; exact hj)

lemma coherent_set_move {s : State} (hc : Coherent s) {i : Nat} {gi : Fact}
    (hgi : s.facts.get? i = some gi) (fact : Fact) (hid : fact.id = gi.id)
    (s1 : State) (hfacts : s1.facts = s.facts.eraseIdx i ++ [fact])
    (hmap : s1.factMap = mapSet s.factMap gi.id fact) : Coherent s1 := by
  obtain ⟨hnd, hforward, hback⟩ := hc
  have hnodup : s.facts.Nodup := List.Nodup.of_map Fact.id hnd
  have hginotmem : gi ∉ s.facts.eraseIdx i :=
    ListAux.not_mem_eraseIdx_self hnodup hgi
  have hidnotmem : gi.id ∉ (s.facts.map Fact.id).eraseIdx i :=
    ListAux.not_mem_eraseIdx_self hnd (by rw [List.get?_map, hgi]; rfl)
  refine ⟨?_, ?_, ?_⟩
  · rw [hfacts, List.map_append, ListAux.map_eraseIdx]
    rw [List.nodup_append]
    refine ⟨List.Nodup.sublist (List.eraseIdx_sublist _ _) hnd, by simp, ?_⟩
    intro a ha
    simp only [List.map_cons, List.map_nil, List.mem_singleton]
    intro he
    rw [he, hid] at ha
    exact hidnotmem ha
  · intro g hg
    rw [hfacts] at hg
    rcases List.mem_append.mp hg with hg' | hg'
    · have hgmem : g ∈ s.facts := (List.eraseIdx_sublist _ _).mem hg'
      have hgid : g.id ≠ gi.id := by
        intro he
        have : g = gi := Coherent.mem_unique ⟨hnd, hforward, hback⟩ hgmem
          (List.get?_mem hgi) he
        rw [this] at hg'
        exact hginotmem hg'
      rw [hmap, mapSet_ne _ _ _ _ hgid]
      exact hforward g hgmem
    · rw [List.mem_singleton.mp hg']
      rw [hmap, ← hid, mapSet_self]
  · intro k g hk
    rw [hmap] at hk
    by_cases hkg : k = gi.id
    · rw [hkg, mapSet_self] at hk
      cases hk
      refine ⟨?_, by rw [hid, hkg]⟩
      rw [hfacts]
      exact List.mem_append.mpr (Or.inr (List.mem_singleton.mpr rfl))
    · rw [mapSet_ne _ _ _ _ hkg] at hk
      obtain ⟨hmem, hidk⟩ := hback k g hk
      obtain ⟨j, hj⟩ := List.get?_of_mem hmem
      have hji : j ≠ i := by
        intro he
        rw [he, hgi] at hj
        have hgig : gi = g := Option.some_inj.mp hj
        rw [← hgig] at hidk
        exact hkg hidk.symm
      refine ⟨?_, hidk⟩
      rw [hfacts]
      exact List.mem_append.mpr (Or.inl (ListAux.mem_eraseIdx_of_ne hj hji))

lemma coherent_updateFact {s : State} (hc : Coherent s) (id : String) (fact : Fact)
    (hid : fact.id = id) : Coherent (updateFact s id fact) := by
  unfold updateFact
  cases hmap : s.factMap id with
  | none => exact hc
  | some p =>
    obtain ⟨hpmem, hpid⟩ := hc.2.2 id p hmap
    dsimp only
    cases hidx : findIndex (fun f => f.id == id) s.facts with
    | none =>
      exfalso
      have := (findIndex_eq_none_iff _ _).mp hidx p hpmem
      rw [hpid] at this
      simp at this
    | some i =>
      obtain ⟨gi, hgi, hpgi⟩ := findIndex_eq_some _ _ i hidx
      have hgiid : gi.id = id := by simpa using hpgi
      cases hstrat : s.strategy
      · refine coherent_set_move hc hgi fact (by rw [hid, hgiid]) _ ?_ ?_
        · show (s.facts.set i fact).eraseIdx i ++ [fact] = s.facts.eraseIdx i ++ [fact]
          rw [ListAux.eraseIdx_set_same]
        · show mapSet s.factMap id fact = mapSet s.factMap gi.id fact
          rw [hgiid]
      · refine coherent_set_idx hc hgi fact (by rw [hid, hgiid]) _ rfl ?_
        show mapSet s.factMap id fact = mapSet s.factMap gi.id fact
        rw [hgiid]

lemma coherent_retrieve {s : State} (hc : Coherent s) (id : String) :
    (retrieve s id).isSome = true ↔ id ∈ s.facts.map Fact.id := by
  constructor
  · intro h
    unfold retrieve at h
    cases hk : s.factMap id with
    | none => rw [hk] at h; cases h
    | some g =>
      obtain ⟨hmem, hidg⟩ := hc.2.2 id g hk
      exact hidg ▸ List.mem_map_of_mem Fact.id hmem
  · intro h
    obtain ⟨g, hg, hidg⟩ := List.mem_map.mp h
    unfold retrieve
    rw [← hidg, hc.2.1 g hg]
    rfl

end LRUWorkingMemory

/-- First fixture fact of the C10 counterexample (id "dup", weight 0). -/
def fDup0 : GoinBuck.Fact :=
  { id := "dup", content := "first", weight := 0, emotionalImpact := ⟨0, 0, 0, 0⟩ }

/-- Second fixture fact of the C10 counterexample: same id, different
content and weight. -/
def fDup1 : GoinBuck.Fact :=
  { id := "dup", content := "second", weight := 1, emotionalImpact := ⟨0, 0, 0, 0⟩ }

/-- Counterexample to claim C10 as stated: `addFact` never checks whether
the fact's id is already present, so adding two facts with the same id
leaves the buffer holding both records while the map holds only the
second — the first buffer fact is no longer the map's entry for its id,
refuting "the factMap and the factBuffer contain exactly the same
facts" for arbitrary operation sequences. -/
theorem C10_counterexample_duplicate_id :
    fDup0 ∈ (GoinBuck.LRUWorkingMemory.insertAll
        (GoinBuck.LRUWorkingMemory.init 2 .lru) [fDup0, fDup1]).facts ∧
    (GoinBuck.LRUWorkingMemory.insertAll
        (GoinBuck.LRUWorkingMemory.init 2 .lru) [fDup0, fDup1]).factMap fDup0.id =
      some fDup1 ∧
    fDup0 ≠ fDup1 := by
  refine ⟨by decide, by decide, by decide⟩

/-- Claim C10 as amended: provided every `addFact` is called with a fact
whose id is not already in the buffer, and every `update(id, item)` is
called with `item.id = id`, every working-memory operation (`addFact`,
`update`, `delete`, `evictOldest`, `evictByWeight`, `clear`,
`consolidate`) preserves the invariant that the id-indexed `factMap` and
the ordered `factBuffer.facts` contain exactly the same facts (each
buffer fact is the map's entry under its id and each map entry is in the
buffer under its key, with no duplicated ids); consequently
`retrieve(id)` succeeds exactly for the ids currently in the buffer. -/
theorem C10_map_buffer_coherence (s : GoinBuck.LRUWorkingMemory.State)
    (hc : GoinBuck.LRUWorkingMemory.Coherent s) :
    (∀ f : GoinBuck.Fact, f.id ∉ s.facts.map GoinBuck.Fact.id →
      GoinBuck.LRUWorkingMemory.Coherent (GoinBuck.LRUWorkingMemory.addFact s f)) ∧
    (∀ (id : String) (f : GoinBuck.Fact), f.id = id →
      GoinBuck.LRUWorkingMemory.Coherent (GoinBuck.LRUWorkingMemory.updateFact s id f)) ∧
    (∀ id : String,
      GoinBuck.LRUWorkingMemory.Coherent (GoinBuck.LRUWorkingMemory.deleteFact s id)) ∧
    GoinBuck.LRUWorkingMemory.Coherent (GoinBuck.LRUWorkingMemory.evictOldest s) ∧
    GoinBuck.LRUWorkingMemory.Coherent (GoinBuck.LRUWorkingMemory.evictByWeight s) ∧
    GoinBuck.LRUWorkingMemory.Coherent (GoinBuck.LRUWorkingMemory.clear s) ∧
    GoinBuck.LRUWorkingMemory.Coherent (GoinBuck.LRUWorkingMemory.consolidate s) ∧
    (∀ id : String,
      (GoinBuck.LRUWorkingMemory.retrieve s id).isSome = true ↔
        id ∈ s.facts.map GoinBuck.Fact.id) :=
  ⟨fun f hf => GoinBuck.LRUWorkingMemory.coherent_addFact hc f hf,
   fun id f hid => GoinBuck.LRUWorkingMemory.coherent_updateFact hc id f hid,
   fun id => GoinBuck.LRUWorkingMemory.coherent_deleteFact hc id,
   GoinBuck.LRUWorkingMemory.coherent_evictOldest hc,
   GoinBuck.LRUWorkingMemory.coherent_evictByWeight hc,
   GoinBuck.LRUWorkingMemory.coherent_clear s,
   GoinBuck.LRUWorkingMemory.coherent_consolidate hc,
   fun id => GoinBuck.LRUWorkingMemory.coherent_retrieve hc id⟩

/-- Fixture state for the C10 witness: one fact inserted into a fresh
capacity-2 memory. -/
def s0C10 : GoinBuck.LRUWorkingMemory.State :=
  GoinBuck.LRUWorkingMemory.addFact (GoinBuck.LRUWorkingMemory.init 2 .lru) fC1

lemma s0C10_coherent : GoinBuck.LRUWorkingMemory.Coherent s0C10 := by
  refine ⟨by decide, ?_, ?_⟩
  · intro f hf
    have hf' : f = fC1 := by
      have : s0C10.facts = [fC1] := rfl
      rw [this] at hf
      exact List.mem_singleton.mp hf
    subst hf'
    rfl
  · intro k f hk
    have heq : s0C10.factMap k = if k = "c1" then some fC1 else none := rfl
    rw [heq] at hk
    by_cases hkc : k = "c1"
    · rw [if_pos hkc] at hk
      injection hk with h
      subst h
      exact ⟨by decide, hkc.symm⟩
    · rw [if_neg hkc] at hk
      cases hk

/-- Witness for C10 (amended) at a concrete coherent one-fact state. -/
theorem C10_map_buffer_coherence_witness :
    GoinBuck.LRUWorkingMemory.Coherent s0C10 ∧
    ((∀ f : GoinBuck.Fact, f.id ∉ s0C10.facts.map GoinBuck.Fact.id →
      GoinBuck.LRUWorkingMemory.Coherent (GoinBuck.LRUWorkingMemory.addFact s0C10 f)) ∧
    (∀ (id : String) (f : GoinBuck.Fact), f.id = id →
      GoinBuck.LRUWorkingMemory.Coherent (GoinBuck.LRUWorkingMemory.updateFact s0C10 id f)) ∧
    (∀ id : String,
      GoinBuck.LRUWorkingMemory.Coherent (GoinBuck.LRUWorkingMemory.deleteFact s0C10 id)) ∧
    GoinBuck.LRUWorkingMemory.Coherent (GoinBuck.LRUWorkingMemory.evictOldest s0C10) ∧
    GoinBuck.LRUWorkingMemory.Coherent (GoinBuck.LRUWorkingMemory.evictByWeight s0C10) ∧
    GoinBuck.LRUWorkingMemory.Coherent (GoinBuck.LRUWorkingMemory.clear s0C10) ∧
    GoinBuck.LRUWorkingMemory.Coherent (GoinBuck.LRUWorkingMemory.consolidate s0C10) ∧
    (∀ id : String,
      (GoinBuck.LRUWorkingMemory.retrieve s0C10 id).isSome = true ↔
        id ∈ s0C10.facts.map GoinBuck.Fact.id)) :=
  ⟨s0C10_coherent, C10_map_buffer_coherence s0C10 s0C10_coherent⟩

end GoinBuck
